import Mathlib

/-!
Shallow embedding of the reconciliation engine of `app_acessos_auth.py`
(function `calcular_conflitos_para_selecionados`), together with proofs of
the specified properties.

The Python function receives
  * `base` — rows `(Grupo, Tp.Sistema, Sistema, Módulo, Menu)`;
  * `conf_df` — rows `(Perfil1, Perfil2, Motivo)`;
  * `perfis_selecionados` — the selected profile names;
and returns the presence/conflict matrix, the per-profile access sets, the
per-profile exclusive sets, the common access set and the detailed conflict
table.  Every definition below is translated directly from the source.
-/

/-- An access tuple: the four columns `(Tp.Sistema, Sistema, Módulo, Menu)`. -/
structure Combo where
  tpSistema : String
  sistema : String
  modulo : String
  menu : String
deriving DecidableEq

/-- One row of the LUCASV base: a profile (column `Grupo`) holding one access tuple. -/
structure Row where
  grupo : String
  combo : Combo
deriving DecidableEq

/-- One conflict rule row: `(Perfil1, Perfil2, Motivo)`. -/
structure Rule where
  perfil1 : String
  perfil2 : String
  motivo : String
deriving DecidableEq

/-- One entry of the per-combo conflict list `combo_conflicts[ck]`:
the dict `{"Perfil1": p1, "Perfil2": p2, "Motivo": motivos}`. -/
structure Conflito where
  perfil1 : String
  perfil2 : String
  motivo : String
deriving DecidableEq

/-- One row of the detailed conflict table `conflicts_df`. -/
structure Registro where
  perfil1 : String
  perfil2 : String
  motivo : String
  combo : Combo
deriving DecidableEq

/-- The Unicode code point of a character (`ord` in Python). -/
def charKey (a : Char) : Nat := a.val.toNat

/-- Lexicographic code-point comparison of character lists: how Python
compares the strings that the engine sorts. -/
def lexLe : List Char → List Char → Bool
  | [], _ => true
  | _ :: _, [] => false
  | a :: as, b :: bs =>
    if charKey a < charKey b then true
    else if charKey b < charKey a then false
    else lexLe as bs

/-- The string order used by the Python `sorted(...)` calls. -/
def strLe (a b : String) : Prop := lexLe a.data b.data = true

instance : DecidableRel strLe :=
  fun a b => inferInstanceAs (Decidable (lexLe a.data b.data = true))

theorem lexLe_refl : ∀ l, lexLe l l = true
  | [] => rfl
  | _ :: l => by simp [lexLe, lexLe_refl l]

theorem lexLe_total : ∀ l₁ l₂, lexLe l₁ l₂ = true ∨ lexLe l₂ l₁ = true
  | [], _ => Or.inl rfl
  | _ :: _, [] => Or.inr rfl
  | a :: as, b :: bs => by
    rcases Nat.lt_trichotomy (charKey a) (charKey b) with h | h | h
    · exact Or.inl (by simp [lexLe, h])
    · rcases lexLe_total as bs with ih | ih
      · exact Or.inl (by simp [lexLe, h, ih])
      · exact Or.inr (by simp [lexLe, h, ih])
    · exact Or.inr (by simp [lexLe, h])

theorem lexLe_antisymm : ∀ l₁ l₂, lexLe l₁ l₂ = true → lexLe l₂ l₁ = true → l₁ = l₂
  | [], [], _, _ => rfl
  | [], _ :: _, _, h => by simp [lexLe] at h
  | _ :: _, [], h, _ => by simp [lexLe] at h
  | a :: as, b :: bs, h₁, h₂ => by
    by_cases hab : charKey a < charKey b
    · rw [lexLe, if_neg (by omega), if_pos hab] at h₂
      exact absurd h₂ (by simp)
    · by_cases hba : charKey b < charKey a
      · rw [lexLe, if_neg (by omega), if_pos hba] at h₁
        exact absurd h₁ (by simp)
      · rw [lexLe, if_neg hab, if_neg hba] at h₁
        rw [lexLe, if_neg hba, if_neg hab] at h₂
        have hk : charKey a = charKey b := by omega
        have : a = b := Char.ext (UInt32.ext hk)
        rw [this, lexLe_antisymm as bs h₁ h₂]

theorem lexLe_trans : ∀ l₁ l₂ l₃,
    lexLe l₁ l₂ = true → lexLe l₂ l₃ = true → lexLe l₁ l₃ = true
  | [], _, _, _, _ => rfl
  | _ :: _, [], _, h, _ => by simp [lexLe] at h
  | _ :: _, _ :: _, [], _, h => by simp [lexLe] at h
  | a :: as, b :: bs, c :: cs, h₁, h₂ => by
    by_cases hba : charKey b < charKey a
    · rw [lexLe, if_neg (by omega), if_pos hba] at h₁
      exact absurd h₁ (by simp)
    · by_cases hcb : charKey c < charKey b
      · rw [lexLe, if_neg (by omega), if_pos hcb] at h₂
        exact absurd h₂ (by simp)
      · by_cases hac : charKey a < charKey c
        · simp [lexLe, hac]
        · have hab : ¬ charKey a < charKey b := by omega
          have hbc : ¬ charKey b < charKey c := by omega
          have hca : ¬ charKey c < charKey a := by omega
          rw [lexLe, if_neg hab, if_neg hba] at h₁
          rw [lexLe, if_neg hbc, if_neg hcb] at h₂
          rw [lexLe, if_neg hac, if_neg hca]
          exact lexLe_trans as bs cs h₁ h₂

theorem strLe_antisymm {a b : String} (h₁ : strLe a b) (h₂ : strLe b a) : a = b :=
  String.toList_inj.mp (lexLe_antisymm _ _ h₁ h₂)

instance : IsTotal String strLe := ⟨fun a b => lexLe_total a.data b.data⟩

instance : IsTrans String strLe := ⟨fun _ _ _ h₁ h₂ => lexLe_trans _ _ _ h₁ h₂⟩

instance : IsRefl String strLe := ⟨fun a => lexLe_refl a.data⟩

/-- First-occurrence deduplication, the behaviour of pandas
`drop_duplicates` / `Series.unique`. -/
def dedupFirst {α : Type} [DecidableEq α] : List α → List α
  | [] => []
  | a :: l => a :: ((dedupFirst l).filter (fun b => decide (b ≠ a)))

/-- All ordered pairs drawn from a list, in the order produced by
`itertools.combinations(l, 2)`. -/
def pairsOf {α : Type} : List α → List (α × α)
  | [] => []
  | a :: l => l.map (fun b => (a, b)) ++ pairsOf l

/-- `combo_key`: the `"||"`-join of the four tuple fields (`astype(str).agg("||".join)`). -/
def comboKey (c : Combo) : String :=
  c.tpSistema ++ "||" ++ c.sistema ++ "||" ++ c.modulo ++ "||" ++ c.menu

/-- `combos`: the deduplicated catalogue of all access tuples of the base
(`base[[...]].drop_duplicates()`), in first-occurrence order. -/
def matrizCombos (base : List Row) : List Combo :=
  dedupFirst (base.map Row.combo)

/-- `perfil_to_set[perfil]`: the set of access tuples of the rows whose
`Grupo` equals `perfil`. -/
def perfilSet (base : List Row) (perfil : String) : Finset Combo :=
  ((base.filter (fun r => decide (r.grupo = perfil))).map Row.combo).toFinset

/-- `acessos_comuns_set = set.intersection(*perfil_to_set.values())`:
the intersection of the selected profiles' access sets. -/
def acessosComuns (base : List Row) : List String → Finset Combo
  | [] => ∅
  | p :: rest => rest.foldl (fun acc q => acc ∩ perfilSet base q) (perfilSet base p)

/-- `exclusivos_por_perfil[perfil] = perfil_to_set[perfil] - union(outros)`:
the tuples of `perfil` held by no other selected profile. -/
def exclusivos (base : List Row) (sel : List String) (perfil : String) : Finset Combo :=
  perfilSet base perfil \
    ((sel.filter (fun q => decide (q ≠ perfil))).foldl
      (fun acc q => acc ∪ perfilSet base q) ∅)

/-- One cell of the presence matrix: `"✔️" if tuple(r) in s else ""`. -/
def presCell (base : List Row) (perfil : String) (c : Combo) : String :=
  if c ∈ perfilSet base perfil then "✔️" else ""

/-- `combo_to_perfis[k]`: the profiles holding some row whose key is `k`
(`base_combo.groupby("combo_key")["Grupo"].unique()`), in row order. -/
def ownersKey (base : List Row) (k : String) : List String :=
  dedupFirst ((base.filter (fun r => decide (comboKey r.combo = k))).map Row.grupo)

/-- `perfis_sel = [p for p in perfis if p in selected_set]`. -/
def selOwners (base : List Row) (sel : List String) (k : String) : List String :=
  (ownersKey base k).filter (fun p => decide (p ∈ sel))

/-- `conf_filtered`: the conflict rules whose two profiles are both selected. -/
def confFiltered (conf : List Rule) (sel : List String) : List Rule :=
  conf.filter (fun r => decide (r.perfil1 ∈ sel ∧ r.perfil2 ∈ sel))

/-- The unordered-pair key `frozenset({a, b})`, represented as the
normalised (sorted) pair. -/
def pkey (a b : String) : String × String :=
  if strLe a b then (a, b) else (b, a)

/-- The reasons attached to pair key `k` by `conf_pair_motivo` (every
matching filtered rule contributes its `Motivo`). -/
def keyMotives (conf : List Rule) (sel : List String) (k : String × String) : List String :=
  ((confFiltered conf sel).filter
    (fun r => decide (pkey r.perfil1 r.perfil2 = k))).map Rule.motivo

/-- `" | ".join(sorted(conf_pair_motivo[key]))`: the sorted, `" | "`-joined
set of reasons of a pair key. -/
def joinedMotivos (conf : List Rule) (sel : List String) (k : String × String) : String :=
  String.intercalate " | " (List.insertionSort strLe (dedupFirst (keyMotives conf sel k)))

/-- The conflict entries of one combo key, given an index from pair keys to
reason lists (the loop body over `combinations(perfis_sel, 2)`). -/
def comboConflictsIdx (idx : String × String → List String) (owners : List String) :
    List Conflito :=
  if owners.length < 2 then []
  else (pairsOf owners).filterMap (fun pq =>
    if idx (pkey pq.1 pq.2) = [] then none
    else some ⟨pq.1, pq.2,
      String.intercalate " | " (List.insertionSort strLe (dedupFirst (idx (pkey pq.1 pq.2))))⟩)

/-- `combo_conflicts[k]`: the recorded conflicts of combo key `k`
(empty list when the key never received an entry). -/
def comboConflicts (base : List Row) (conf : List Rule) (sel : List String) (k : String) :
    List Conflito :=
  comboConflictsIdx (keyMotives conf sel) (selOwners base sel k)

/-- The `Conflito?` column of the matrix row of tuple `c`:
`"⚠️"` when `ck in combo_conflicts`, `""` otherwise (and `""` throughout the
early-return branch taken when `conf_filtered` is empty). -/
def conflitoFlag (base : List Row) (conf : List Rule) (sel : List String) (c : Combo) : String :=
  if confFiltered conf sel = [] then ""
  else if comboConflicts base conf sel (comboKey c) = [] then "" else "⚠️"

/-- The `Perfis em Conflito` column of the matrix row of tuple `c`:
the sorted, `"; "`-joined set of `"P1 x P2"` labels of its recorded conflicts. -/
def conflitoDescr (base : List Row) (conf : List Rule) (sel : List String) (c : Combo) : String :=
  if confFiltered conf sel = [] then ""
  else if comboConflicts base conf sel (comboKey c) = [] then ""
  else String.intercalate "; " (List.insertionSort strLe (dedupFirst
    ((comboConflicts base conf sel (comboKey c)).map
      (fun cf => cf.perfil1 ++ " x " ++ cf.perfil2))))

/-- `conflicts_df`: one record per (matrix row, recorded conflict of its key),
carrying the row's tuple fields; empty in the early-return branch. -/
def registros (base : List Row) (conf : List Rule) (sel : List String) : List Registro :=
  if confFiltered conf sel = [] then []
  else (matrizCombos base).flatMap (fun c =>
    (comboConflicts base conf sel (comboKey c)).map
      (fun cf => ⟨cf.perfil1, cf.perfil2, cf.motivo, c⟩))

/-- Modelled from the spec: `TupleOwners` maps each exact access tuple to the
set of profiles holding it (§4.1).  The source has no per-tuple owner map: it
keys owners by the `"||"`-joined string `comboKey`, which is not injective. -/
def specTupleOwners (base : List Row) (t : Combo) : List String :=
  dedupFirst ((base.filter (fun r => decide (r.combo = t))).map Row.grupo)

/-! ### Helper lemmas on the list combinators -/

theorem mem_dedupFirst {α : Type} [DecidableEq α] {a : α} :
    ∀ {l : List α}, a ∈ dedupFirst l ↔ a ∈ l
  | [] => Iff.rfl
  | x :: l => by
    by_cases h : a = x
    · simp [dedupFirst, h]
    · simp [dedupFirst, h, List.mem_filter, mem_dedupFirst (l := l)]

theorem nodup_dedupFirst {α : Type} [DecidableEq α] :
    ∀ (l : List α), (dedupFirst l).Nodup
  | [] => List.nodup_nil
  | x :: l => by
    refine List.Nodup.cons ?_ ((nodup_dedupFirst l).filter _)
    simp [List.mem_filter]

theorem pairsOf_ne {α : Type} {p q : α} :
    ∀ {l : List α}, l.Nodup → (p, q) ∈ pairsOf l → p ≠ q
  | [], _, h => by simp [pairsOf] at h
  | a :: l, hnd, h => by
    rw [pairsOf, List.mem_append, List.mem_map] at h
    rcases h with ⟨b, hb, hpq⟩ | h
    · injection hpq with h1 h2
      subst h1; subst h2
      intro heq
      exact (List.nodup_cons.mp hnd).1 (heq ▸ hb)
    · exact pairsOf_ne (List.nodup_cons.mp hnd).2 h

theorem mem_sortedDedup {l : List String} {m : String} :
    m ∈ List.insertionSort strLe (dedupFirst l) ↔ m ∈ l := by
  rw [List.mem_insertionSort, mem_dedupFirst]

theorem nodup_sortedDedup (l : List String) :
    (List.insertionSort strLe (dedupFirst l)).Nodup :=
  ((List.perm_insertionSort strLe (dedupFirst l)).nodup_iff).mpr (nodup_dedupFirst l)

theorem sorted_sortedDedup (l : List String) :
    List.Sorted strLe (List.insertionSort strLe (dedupFirst l)) :=
  List.sorted_insertionSort strLe (dedupFirst l)

/-! ### Lemmas on the access-set layer -/

theorem mem_perfilSet {base : List Row} {p : String} {c : Combo} :
    c ∈ perfilSet base p ↔ ∃ r ∈ base, r.grupo = p ∧ r.combo = c := by
  simp only [perfilSet, List.mem_toFinset, List.mem_map, List.mem_filter,
    decide_eq_true_eq]
  constructor
  · rintro ⟨r, ⟨hr, hg⟩, hc⟩
    exact ⟨r, hr, hg, hc⟩
  · rintro ⟨r, hr, hg, hc⟩
    exact ⟨r, ⟨hr, hg⟩, hc⟩

theorem mem_foldl_inter (base : List Row) {x : Combo} :
    ∀ (l : List String) (init : Finset Combo),
      x ∈ l.foldl (fun acc q => acc ∩ perfilSet base q) init ↔
        x ∈ init ∧ ∀ q ∈ l, x ∈ perfilSet base q
  | [], init => by simp
  | p :: l, init => by
    rw [List.foldl_cons, mem_foldl_inter base l (init ∩ perfilSet base p)]
    simp only [Finset.mem_inter, List.mem_cons]
    constructor
    · rintro ⟨⟨hi, hp⟩, hl⟩
      exact ⟨hi, fun q hq => hq.elim (fun h => h ▸ hp) (hl q)⟩
    · rintro ⟨hi, hall⟩
      exact ⟨⟨hi, hall p (Or.inl rfl)⟩, fun q hq => hall q (Or.inr hq)⟩

theorem mem_acessosComuns {base : List Row} {sel : List String} (hne : sel ≠ [])
    {x : Combo} :
    x ∈ acessosComuns base sel ↔ ∀ p ∈ sel, x ∈ perfilSet base p := by
  match sel with
  | [] => exact absurd rfl hne
  | p :: rest =>
    rw [acessosComuns, mem_foldl_inter base rest (perfilSet base p)]
    simp only [List.mem_cons]
    constructor
    · rintro ⟨hp, hrest⟩ q hq
      exact hq.elim (fun h => h ▸ hp) (hrest q)
    · intro hall
      exact ⟨hall p (Or.inl rfl), fun q hq => hall q (Or.inr hq)⟩

theorem mem_foldl_union (base : List Row) {x : Combo} :
    ∀ (l : List String) (init : Finset Combo),
      x ∈ l.foldl (fun acc q => acc ∪ perfilSet base q) init ↔
        x ∈ init ∨ ∃ q ∈ l, x ∈ perfilSet base q
  | [], init => by simp
  | p :: l, init => by
    rw [List.foldl_cons, mem_foldl_union base l (init ∪ perfilSet base p)]
    simp only [Finset.mem_union, List.mem_cons]
    constructor
    · rintro ((hi | hp) | ⟨q, hq, hx⟩)
      · exact Or.inl hi
      · exact Or.inr ⟨p, Or.inl rfl, hp⟩
      · exact Or.inr ⟨q, Or.inr hq, hx⟩
    · rintro (hi | ⟨q, hq | hq, hx⟩)
      · exact Or.inl (Or.inl hi)
      · exact Or.inl (Or.inr (hq ▸ hx))
      · exact Or.inr ⟨q, hq, hx⟩

theorem mem_exclusivos {base : List Row} {sel : List String} {p : String} {x : Combo} :
    x ∈ exclusivos base sel p ↔
      x ∈ perfilSet base p ∧ ∀ q ∈ sel, q ≠ p → x ∉ perfilSet base q := by
  rw [exclusivos, Finset.mem_sdiff, mem_foldl_union]
  simp only [Finset.not_mem_empty, false_or, List.mem_filter, decide_eq_true_eq, not_exists,
    not_and]
  constructor
  · rintro ⟨hx, hno⟩
    exact ⟨hx, fun q hq hqp => hno q ⟨hq, hqp⟩⟩
  · rintro ⟨hx, hno⟩
    exact ⟨hx, fun q hq => hno q hq.1 hq.2⟩

/-! ### Lemmas on the unordered-pair key -/

theorem pkey_comm (a b : String) : pkey a b = pkey b a := by
  unfold pkey
  by_cases h₁ : strLe a b <;> by_cases h₂ : strLe b a <;> simp [h₁, h₂]
  · exact ⟨strLe_antisymm h₁ h₂, strLe_antisymm h₂ h₁⟩
  · rcases lexLe_total a.data b.data with h | h
    · exact absurd h h₁
    · exact absurd h h₂

theorem pkey_self (a : String) : pkey a a = (a, a) := by
  rw [pkey, if_pos (show strLe a a from lexLe_refl a.data)]

theorem pkey_ne {a b : String} (h : a ≠ b) : (pkey a b).1 ≠ (pkey a b).2 := by
  by_cases hle : strLe a b
  · rw [pkey, if_pos hle]; exact h
  · rw [pkey, if_neg hle]; exact Ne.symm h

/-! ### Lemmas on the conflict index -/

theorem mem_confFiltered {conf : List Rule} {sel : List String} {r : Rule} :
    r ∈ confFiltered conf sel ↔ r ∈ conf ∧ r.perfil1 ∈ sel ∧ r.perfil2 ∈ sel := by
  simp [confFiltered, List.mem_filter]

theorem keyMotives_append (c₁ c₂ : List Rule) (sel : List String) (k : String × String) :
    keyMotives (c₁ ++ c₂) sel k = keyMotives c₁ sel k ++ keyMotives c₂ sel k := by
  simp [keyMotives, confFiltered, List.filter_append]

theorem keyMotives_cons (r : Rule) (conf : List Rule) (sel : List String) (k : String × String) :
    keyMotives (r :: conf) sel k =
      (if (r.perfil1 ∈ sel ∧ r.perfil2 ∈ sel) ∧ pkey r.perfil1 r.perfil2 = k
        then [r.motivo] else []) ++ keyMotives conf sel k := by
  simp only [keyMotives, confFiltered, List.filter_cons]
  by_cases h₁ : r.perfil1 ∈ sel ∧ r.perfil2 ∈ sel
  · by_cases h₂ : pkey r.perfil1 r.perfil2 = k <;>
      simp [h₁, h₂, List.filter_cons]
  · simp [h₁]

theorem mem_keyMotives {conf : List Rule} {sel : List String} {k : String × String}
    {m : String} :
    m ∈ keyMotives conf sel k ↔
      ∃ r ∈ conf, (r.perfil1 ∈ sel ∧ r.perfil2 ∈ sel) ∧
        pkey r.perfil1 r.perfil2 = k ∧ r.motivo = m := by
  simp only [keyMotives, confFiltered, List.mem_map, List.mem_filter, decide_eq_true_eq]
  constructor
  · rintro ⟨r, ⟨⟨hr, hsel⟩, hk⟩, hm⟩
    exact ⟨r, hr, hsel, hk, hm⟩
  · rintro ⟨r, hr, hsel, hk, hm⟩
    exact ⟨r, ⟨⟨hr, hsel⟩, hk⟩, hm⟩

theorem keyMotives_of_nil {conf : List Rule} {sel : List String}
    (h : confFiltered conf sel = []) (k : String × String) :
    keyMotives conf sel k = [] := by
  simp [keyMotives, h]

theorem comboConflicts_of_nil {base : List Row} {conf : List Rule} {sel : List String}
    (h : confFiltered conf sel = []) (k : String) :
    comboConflicts base conf sel k = [] := by
  unfold comboConflicts comboConflictsIdx
  by_cases hl : (selOwners base sel k).length < 2
  · rw [if_pos hl]
  · rw [if_neg hl]
    refine List.filterMap_eq_nil_iff.mpr fun pq _ => ?_
    rw [keyMotives_of_nil h, if_pos rfl]

/-! ### Branch-free characterisations of the conflict columns -/

theorem conflitoFlag_char (base : List Row) (conf : List Rule) (sel : List String) (c : Combo) :
    conflitoFlag base conf sel c =
      if comboConflicts base conf sel (comboKey c) = [] then "" else "⚠️" := by
  unfold conflitoFlag
  by_cases h : confFiltered conf sel = []
  · rw [if_pos h, comboConflicts_of_nil h, if_pos rfl]
  · rw [if_neg h]

theorem conflitoDescr_char (base : List Row) (conf : List Rule) (sel : List String) (c : Combo) :
    conflitoDescr base conf sel c =
      if comboConflicts base conf sel (comboKey c) = [] then ""
      else String.intercalate "; " (List.insertionSort strLe (dedupFirst
        ((comboConflicts base conf sel (comboKey c)).map
          (fun cf => cf.perfil1 ++ " x " ++ cf.perfil2)))) := by
  unfold conflitoDescr
  by_cases h : confFiltered conf sel = []
  · rw [if_pos h, comboConflicts_of_nil h, if_pos rfl]
  · rw [if_neg h]

theorem registros_char (base : List Row) (conf : List Rule) (sel : List String) :
    registros base conf sel =
      (matrizCombos base).flatMap (fun c =>
        (comboConflicts base conf sel (comboKey c)).map
          (fun cf => ⟨cf.perfil1, cf.perfil2, cf.motivo, c⟩)) := by
  unfold registros
  by_cases h : confFiltered conf sel = []
  · rw [if_pos h]
    refine (List.eq_nil_iff_forall_not_mem.mpr fun reg hreg => ?_).symm
    obtain ⟨c, _, hmem⟩ := List.mem_flatMap.mp hreg
    rw [comboConflicts_of_nil h] at hmem
    simp at hmem
  · rw [if_neg h]

/-! ### Congruence of the conflict computation in the rule index -/

theorem filterMap_ext {α β : Type} {f g : α → Option β} :
    ∀ {l : List α}, (∀ a ∈ l, f a = g a) → l.filterMap f = l.filterMap g
  | [], _ => rfl
  | a :: l, h => by
    rw [List.filterMap_cons, List.filterMap_cons, h a (List.mem_cons_self a l),
      filterMap_ext (fun b hb => h b (List.mem_cons_of_mem a hb))]

theorem selOwners_nodup (base : List Row) (sel : List String) (k : String) :
    (selOwners base sel k).Nodup :=
  (nodup_dedupFirst _).filter _

theorem comboConflictsIdx_ext {idx₁ idx₂ : String × String → List String}
    {owners : List String} (hnd : owners.Nodup)
    (h : ∀ k : String × String, k.1 ≠ k.2 → idx₁ k = idx₂ k) :
    comboConflictsIdx idx₁ owners = comboConflictsIdx idx₂ owners := by
  unfold comboConflictsIdx
  by_cases hl : owners.length < 2
  · rw [if_pos hl, if_pos hl]
  · rw [if_neg hl, if_neg hl]
    refine filterMap_ext fun pq hpq => ?_
    obtain ⟨p₁, p₂⟩ := pq
    rw [h _ (pkey_ne (pairsOf_ne hnd hpq))]

theorem keyMotives_swap (c₁ c₂ : List Rule) (sel : List String) (a b m : String) :
    keyMotives (c₁ ++ ⟨a, b, m⟩ :: c₂) sel = keyMotives (c₁ ++ ⟨b, a, m⟩ :: c₂) sel := by
  funext k
  rw [keyMotives_append, keyMotives_append, keyMotives_cons, keyMotives_cons]
  congr 2
  refine if_congr ?_ rfl rfl
  constructor
  · rintro ⟨⟨h₁, h₂⟩, hk⟩
    exact ⟨⟨h₂, h₁⟩, by rwa [pkey_comm]⟩
  · rintro ⟨⟨h₁, h₂⟩, hk⟩
    exact ⟨⟨h₂, h₁⟩, by rwa [pkey_comm]⟩

theorem keyMotives_selfpair (c₁ c₂ : List Rule) (sel : List String) (a m : String)
    {k : String × String} (hk : k.1 ≠ k.2) :
    keyMotives (c₁ ++ ⟨a, a, m⟩ :: c₂) sel k = keyMotives (c₁ ++ c₂) sel k := by
  rw [keyMotives_append, keyMotives_append, keyMotives_cons]
  have hno : ¬ ((((⟨a, a, m⟩ : Rule).perfil1 ∈ sel ∧ (⟨a, a, m⟩ : Rule).perfil2 ∈ sel)) ∧
      pkey (⟨a, a, m⟩ : Rule).perfil1 (⟨a, a, m⟩ : Rule).perfil2 = k) := by
    rintro ⟨-, hp⟩
    rw [pkey_self] at hp
    exact hk (by rw [← hp])
  rw [if_neg hno, List.nil_append]

theorem comboConflicts_swap (base : List Row) (sel : List String) (c₁ c₂ : List Rule)
    (a b m : String) (k : String) :
    comboConflicts base (c₁ ++ ⟨a, b, m⟩ :: c₂) sel k =
      comboConflicts base (c₁ ++ ⟨b, a, m⟩ :: c₂) sel k := by
  unfold comboConflicts
  rw [keyMotives_swap]

theorem comboConflicts_selfpair (base : List Row) (sel : List String) (c₁ c₂ : List Rule)
    (a m : String) (k : String) :
    comboConflicts base (c₁ ++ ⟨a, a, m⟩ :: c₂) sel k =
      comboConflicts base (c₁ ++ c₂) sel k := by
  unfold comboConflicts
  exact comboConflictsIdx_ext (selOwners_nodup base sel k)
    (fun k' hk' => keyMotives_selfpair c₁ c₂ sel a m hk')

/-! ### The reason string carried by a recorded conflict -/

theorem mem_comboConflictsIdx {idx : String × String → List String} {owners : List String}
    {cf : Conflito} (h : cf ∈ comboConflictsIdx idx owners) :
    cf.motivo = String.intercalate " | "
      (List.insertionSort strLe (dedupFirst (idx (pkey cf.perfil1 cf.perfil2)))) := by
  unfold comboConflictsIdx at h
  by_cases hl : owners.length < 2
  · rw [if_pos hl] at h
    exact absurd h (List.not_mem_nil cf)
  · rw [if_neg hl] at h
    obtain ⟨pq, hpq, hf⟩ := List.mem_filterMap.mp h
    by_cases he : idx (pkey pq.1 pq.2) = []
    · rw [if_pos he] at hf
      exact absurd hf (by simp)
    · rw [if_neg he] at hf
      obtain rfl := (Option.some.inj hf).symm
      rfl

theorem registros_motivo {base : List Row} {conf : List Rule} {sel : List String}
    {reg : Registro} (h : reg ∈ registros base conf sel) :
    reg.motivo = joinedMotivos conf sel (pkey reg.perfil1 reg.perfil2) := by
  rw [registros_char] at h
  obtain ⟨c, _, hmem⟩ := List.mem_flatMap.mp h
  obtain ⟨cf, hcf, rfl⟩ := List.mem_map.mp hmem
  exact mem_comboConflictsIdx hcf

/-! ### Provenance of the profiles named in a conflict record -/

theorem pairsOf_sub {α : Type} : ∀ {l : List α} {pq : α × α},
    pq ∈ pairsOf l → pq.1 ∈ l ∧ pq.2 ∈ l
  | [], _, h => by simp [pairsOf] at h
  | a :: l, pq, h => by
    rw [pairsOf, List.mem_append, List.mem_map] at h
    rcases h with ⟨b, hb, rfl⟩ | h
    · exact ⟨List.mem_cons_self a l, List.mem_cons_of_mem a hb⟩
    · have ih := pairsOf_sub h
      exact ⟨List.mem_cons_of_mem a ih.1, List.mem_cons_of_mem a ih.2⟩

theorem comboConflictsIdx_profiles {idx : String × String → List String}
    {owners : List String} {cf : Conflito} (h : cf ∈ comboConflictsIdx idx owners) :
    cf.perfil1 ∈ owners ∧ cf.perfil2 ∈ owners := by
  unfold comboConflictsIdx at h
  by_cases hl : owners.length < 2
  · rw [if_pos hl] at h
    exact absurd h (List.not_mem_nil cf)
  · rw [if_neg hl] at h
    obtain ⟨pq, hpq, hf⟩ := List.mem_filterMap.mp h
    by_cases he : idx (pkey pq.1 pq.2) = []
    · rw [if_pos he] at hf
      exact absurd hf (by simp)
    · rw [if_neg he] at hf
      obtain rfl := (Option.some.inj hf).symm
      exact pairsOf_sub hpq

theorem mem_selOwners {base : List Row} {sel : List String} {k x : String}
    (h : x ∈ selOwners base sel k) : (∃ r ∈ base, r.grupo = x) ∧ x ∈ sel := by
  simp only [selOwners, List.mem_filter, decide_eq_true_eq] at h
  obtain ⟨ho, hs⟩ := h
  rw [ownersKey, mem_dedupFirst] at ho
  simp only [List.mem_map, List.mem_filter, decide_eq_true_eq] at ho
  obtain ⟨r, ⟨hr, -⟩, hg⟩ := ho
  exact ⟨⟨r, hr, hg⟩, hs⟩

theorem registros_profiles {base : List Row} {conf : List Rule} {sel : List String}
    {reg : Registro} (h : reg ∈ registros base conf sel) :
    ((∃ r ∈ base, r.grupo = reg.perfil1) ∧ reg.perfil1 ∈ sel) ∧
      ((∃ r ∈ base, r.grupo = reg.perfil2) ∧ reg.perfil2 ∈ sel) := by
  rw [registros_char] at h
  obtain ⟨c, -, hmem⟩ := List.mem_flatMap.mp h
  obtain ⟨cf, hcf, rfl⟩ := List.mem_map.mp hmem
  have hp := comboConflictsIdx_profiles hcf
  exact ⟨mem_selOwners hp.1, mem_selOwners hp.2⟩

/-! ### Concrete inputs used by witnesses and counterexamples -/

/-- An access tuple shared by profiles `A` and `B` below. -/
def comboW : Combo := ⟨"ERP", "SAP", "GL", "Post"⟩

/-- An access tuple held only by profile `A` below. -/
def comboW2 : Combo := ⟨"ERP", "SAP", "AP", "Pay"⟩

/-- A small assignment table: `A` holds both tuples, `B` holds only `comboW`. -/
def baseW : List Row := [⟨"A", comboW⟩, ⟨"B", comboW⟩, ⟨"A", comboW2⟩]

/-- Two conflict rules for the same unordered pair `{A, B}`, in both orders. -/
def confW : List Rule := [⟨"A", "B", "r2"⟩, ⟨"B", "A", "r1"⟩]

/-- The selection `[A, B]`. -/
def selW : List String := ["A", "B"]

/-- Two distinct access tuples whose `"||"`-joined keys collide. -/
def comboX1 : Combo := ⟨"a||b", "c", "d", "e"⟩

/-- The colliding partner of `comboX1`. -/
def comboX2 : Combo := ⟨"a", "b||c", "d", "e"⟩

/-- `P1` holds only `comboX1`; `P2` holds only `comboX2`. -/
def baseX : List Row := [⟨"P1", comboX1⟩, ⟨"P2", comboX2⟩]

/-- One conflict rule between `P1` and `P2`. -/
def confX : List Rule := [⟨"P1", "P2", "m"⟩]

/-! ### The claims -/

/-- C1: the source keys the conflict cross-reference by the `"||"`-joined
string of the tuple fields, which is not injective.  At the input below the
two distinct tuples `comboX1` and `comboX2` share one key, so the matrix row
of `comboX1` is flagged as conflicting (with pair description `"P1 x P2"`)
although only one selected profile, `P1`, holds that exact tuple — violating
the claim (and spec step 4c/4e) that a flagged tuple has at least two distinct
selected owners with a conflicting pair among them. -/
theorem claim_c1_key_collision :
    comboX1 ≠ comboX2 ∧
      comboKey comboX1 = comboKey comboX2 ∧
      conflitoFlag baseX confX ["P1", "P2"] comboX1 = "⚠️" ∧
      conflitoDescr baseX confX ["P1", "P2"] comboX1 = "P1 x P2" ∧
      (specTupleOwners baseX comboX1).filter
        (fun p => decide (p ∈ (["P1", "P2"] : List String))) = ["P1"] := by
  decide

/-- C2: with at least two selected profiles, all present in the assignment
table, the common set is exactly the intersection of the selected profiles'
access sets; `acessosComuns` is total, so an empty intersection is the empty
set, not an error. -/
theorem claim_c2_comuns (base : List Row) (sel : List String)
    (hlen : 2 ≤ sel.length) (hkeys : ∀ p ∈ sel, ∃ r ∈ base, r.grupo = p) (x : Combo) :
    x ∈ acessosComuns base sel ↔ ∀ p ∈ sel, x ∈ perfilSet base p := by
  have hne : sel ≠ [] := by
    intro h
    rw [h] at hlen
    simp at hlen
  exact mem_acessosComuns hne

/-- Witness for C2 at a concrete input. -/
theorem claim_c2_comuns_w :
    comboW ∈ acessosComuns baseW selW ↔ ∀ p ∈ selW, comboW ∈ perfilSet baseW p :=
  claim_c2_comuns baseW selW (by decide) (by decide) comboW

/-- C3: the exclusive set of a selected profile `p` is exactly the tuples of
`p` held by no other selected profile; hence it is a subset of `p`'s set and
disjoint from the exclusive set of any other selected profile. -/
theorem claim_c3_exclusivos (base : List Row) (sel : List String) (p q : String)
    (hp : p ∈ sel) (hq : q ∈ sel) (hpq : p ≠ q) :
    (∀ x : Combo, x ∈ exclusivos base sel p ↔
        x ∈ perfilSet base p ∧ ∀ r ∈ sel, r ≠ p → x ∉ perfilSet base r) ∧
      exclusivos base sel p ⊆ perfilSet base p ∧
      Disjoint (exclusivos base sel p) (exclusivos base sel q) := by
  refine ⟨fun x => mem_exclusivos, fun x hx => (mem_exclusivos.mp hx).1, ?_⟩
  rw [Finset.disjoint_left]
  intro x hxp hxq
  exact (mem_exclusivos.mp hxp).2 q hq (Ne.symm hpq) (mem_exclusivos.mp hxq).1

/-- Witness for C3 at a concrete input. -/
theorem claim_c3_exclusivos_w :
    (∀ x : Combo, x ∈ exclusivos baseW selW "A" ↔
        x ∈ perfilSet baseW "A" ∧ ∀ r ∈ selW, r ≠ "A" → x ∉ perfilSet baseW r) ∧
      exclusivos baseW selW "A" ⊆ perfilSet baseW "A" ∧
      Disjoint (exclusivos baseW selW "A") (exclusivos baseW selW "B") :=
  claim_c3_exclusivos baseW selW "A" "B" (by decide) (by decide) (by decide)

/-- C4: every reason string of every rule for an unordered pair is retained,
and every recorded conflict of that pair carries the `" | "`-joined, sorted,
deduplicated union of those reasons. -/
theorem claim_c4_motivos (base : List Row) (conf : List Rule) (sel : List String)
    (reg : Registro) (hreg : reg ∈ registros base conf sel) :
    reg.motivo = String.intercalate " | " (List.insertionSort strLe
        (dedupFirst (keyMotives conf sel (pkey reg.perfil1 reg.perfil2)))) ∧
      (∀ m : String, m ∈ List.insertionSort strLe
          (dedupFirst (keyMotives conf sel (pkey reg.perfil1 reg.perfil2))) ↔
        ∃ r ∈ conf, (r.perfil1 ∈ sel ∧ r.perfil2 ∈ sel) ∧
          pkey r.perfil1 r.perfil2 = pkey reg.perfil1 reg.perfil2 ∧ r.motivo = m) ∧
      (List.insertionSort strLe
        (dedupFirst (keyMotives conf sel (pkey reg.perfil1 reg.perfil2)))).Nodup ∧
      List.Sorted strLe (List.insertionSort strLe
        (dedupFirst (keyMotives conf sel (pkey reg.perfil1 reg.perfil2)))) := by
  refine ⟨registros_motivo hreg, fun m => ?_, nodup_sortedDedup _, sorted_sortedDedup _⟩
  rw [mem_sortedDedup, mem_keyMotives]

/-- Witness for C4 at a concrete input: the two rules `(A,B,"r2")` and
`(B,A,"r1")` both survive, joined as `"r1 | r2"`. -/
theorem claim_c4_motivos_w :
    (⟨"A", "B", "r1 | r2", comboW⟩ : Registro).motivo =
      String.intercalate " | " (List.insertionSort strLe
        (dedupFirst (keyMotives confW selW
          (pkey (⟨"A", "B", "r1 | r2", comboW⟩ : Registro).perfil1
            (⟨"A", "B", "r1 | r2", comboW⟩ : Registro).perfil2)))) :=
  (claim_c4_motivos baseW confW selW ⟨"A", "B", "r1 | r2", comboW⟩ (by decide)).1

/-- C5: conflict detection is symmetric in the order of a rule's two profile
names — replacing `(a, b, m)` by `(b, a, m)` anywhere in the rule list leaves
every row's conflict flag and description and the detailed conflict table
unchanged. -/
theorem claim_c5_sym (base : List Row) (sel : List String) (c₁ c₂ : List Rule)
    (a b m : String) :
    (∀ c : Combo,
        conflitoFlag base (c₁ ++ ⟨a, b, m⟩ :: c₂) sel c =
          conflitoFlag base (c₁ ++ ⟨b, a, m⟩ :: c₂) sel c ∧
        conflitoDescr base (c₁ ++ ⟨a, b, m⟩ :: c₂) sel c =
          conflitoDescr base (c₁ ++ ⟨b, a, m⟩ :: c₂) sel c) ∧
      registros base (c₁ ++ ⟨a, b, m⟩ :: c₂) sel =
        registros base (c₁ ++ ⟨b, a, m⟩ :: c₂) sel := by
  have hcc := comboConflicts_swap base sel c₁ c₂ a b m
  refine ⟨fun c => ⟨?_, ?_⟩, ?_⟩
  · rw [conflitoFlag_char, conflitoFlag_char, hcc]
  · rw [conflitoDescr_char, conflitoDescr_char, hcc]
  · rw [registros_char, registros_char]
    simp only [hcc]

/-- C6 counterexample: the source performs no membership check on the selected
profiles.  Selecting the unknown profile `"X"` (absent from `baseW`) produces a
complete result — full matrix catalogue, filled presence cells, common set,
exclusive set and conflict table — with no error, refuting the claim that an
invalid-selection error is signaled and no result is produced. -/
theorem claim_c6_cex :
    matrizCombos baseW = [comboW, comboW2] ∧
      presCell baseW "A" comboW = "✔️" ∧
      presCell baseW "X" comboW = "" ∧
      acessosComuns baseW ["A", "X"] = ∅ ∧
      exclusivos baseW ["A", "X"] "A" = perfilSet baseW "A" ∧
      registros baseW confW ["A", "X"] = [] := by
  decide

/-- C6 amended: if a selected profile is absent from the assignment table the
engine does not signal an error; it treats that profile as holding the empty
set of tuples and produces the complete analysis — the matrix still enumerates
the full tuple catalogue, the unknown profile's column is entirely blank, and
the unknown profile never appears in a conflict record. -/
theorem claim_c6_amended (base : List Row) (conf : List Rule) (sel : List String)
    (p : String) (hlen : 2 ≤ sel.length) (hp : p ∈ sel)
    (habs : ∀ r ∈ base, r.grupo ≠ p) :
    perfilSet base p = ∅ ∧
      (∀ c : Combo, c ∈ matrizCombos base ↔ ∃ r ∈ base, r.combo = c) ∧
      (∀ c : Combo, presCell base p c = "") ∧
      (∀ reg ∈ registros base conf sel, reg.perfil1 ≠ p ∧ reg.perfil2 ≠ p) := by
  have hps : perfilSet base p = ∅ := by
    rw [Finset.eq_empty_iff_forall_not_mem]
    intro c hc
    obtain ⟨r, hr, hg, -⟩ := mem_perfilSet.mp hc
    exact habs r hr hg
  refine ⟨hps, fun c => ?_, fun c => ?_, fun reg hreg => ?_⟩
  · rw [matrizCombos, mem_dedupFirst, List.mem_map]
  · rw [presCell, if_neg]
    rw [hps]
    exact Finset.not_mem_empty c
  · have hprov := registros_profiles hreg
    constructor
    · obtain ⟨⟨r, hr, hg⟩, -⟩ := hprov.1
      intro he
      exact habs r hr (he ▸ hg)
    · obtain ⟨⟨r, hr, hg⟩, -⟩ := hprov.2
      intro he
      exact habs r hr (he ▸ hg)

/-- Witness for the amended C6 at a concrete input (unknown profile `"X"`). -/
theorem claim_c6_amended_w :
    perfilSet baseW "X" = ∅ ∧
      (∀ c : Combo, c ∈ matrizCombos baseW ↔ ∃ r ∈ baseW, r.combo = c) ∧
      (∀ c : Combo, presCell baseW "X" c = "") ∧
      (∀ reg ∈ registros baseW confW ["A", "X"], reg.perfil1 ≠ "X" ∧ reg.perfil2 ≠ "X") :=
  claim_c6_amended baseW confW ["A", "X"] "X" (by decide) (by decide) (by decide)

/-- C7: the presence matrix has exactly one row per distinct access tuple of
the whole table (no duplicates, global catalogue), each selected profile's
cell is `"✔️"` exactly when the profile holds the row's tuple and `""` exactly
when it does not, so a tuple held by no selected profile gives an all-blank
row. -/
theorem claim_c7_matriz (base : List Row) (sel : List String) (p : String)
    (hp : p ∈ sel) :
    (matrizCombos base).Nodup ∧
      (∀ c : Combo, c ∈ matrizCombos base ↔ ∃ r ∈ base, r.combo = c) ∧
      (∀ c : Combo, (presCell base p c = "✔️" ↔ c ∈ perfilSet base p) ∧
        (presCell base p c = "" ↔ c ∉ perfilSet base p)) ∧
      (∀ c : Combo, (∀ q ∈ sel, c ∉ perfilSet base q) →
        ∀ q ∈ sel, presCell base q c = "") := by
  refine ⟨nodup_dedupFirst _, fun c => ?_, fun c => ?_, fun c hall q hq => ?_⟩
  · rw [matrizCombos, mem_dedupFirst, List.mem_map]
  · by_cases h : c ∈ perfilSet base p <;> simp [presCell, h]
  · rw [presCell, if_neg (hall q hq)]

/-- Witness for C7 at a concrete input. -/
theorem claim_c7_matriz_w :
    (matrizCombos baseW).Nodup ∧
      (∀ c : Combo, c ∈ matrizCombos baseW ↔ ∃ r ∈ baseW, r.combo = c) ∧
      (∀ c : Combo, (presCell baseW "B" c = "✔️" ↔ c ∈ perfilSet baseW "B") ∧
        (presCell baseW "B" c = "" ↔ c ∉ perfilSet baseW "B")) ∧
      (∀ c : Combo, (∀ q ∈ selW, c ∉ perfilSet baseW q) →
        ∀ q ∈ selW, presCell baseW q c = "") :=
  claim_c7_matriz baseW selW "B" (by decide)

/-- C8: the conflict index keeps exactly the rules whose two profiles are both
selected, and when the restricted rule list is empty every row's conflict flag
and description are empty and the detailed conflict table is empty — a normal
outcome, not an error. -/
theorem claim_c8_restricted (base : List Row) (conf : List Rule) (sel : List String) :
    (∀ r : Rule, r ∈ confFiltered conf sel ↔
        r ∈ conf ∧ r.perfil1 ∈ sel ∧ r.perfil2 ∈ sel) ∧
      (confFiltered conf sel = [] →
        (∀ c : Combo, conflitoFlag base conf sel c = "" ∧ conflitoDescr base conf sel c = "") ∧
          registros base conf sel = []) := by
  refine ⟨fun r => mem_confFiltered, fun h => ⟨fun c => ?_, ?_⟩⟩
  · rw [conflitoFlag, if_pos h, conflitoDescr, if_pos h]
    exact ⟨rfl, rfl⟩
  · rw [registros, if_pos h]

/-- Witness for C8 at a concrete input: with selection `[A, C]` both rules of
`confW` name the non-selected `B`, are dropped, and everything stays empty. -/
theorem claim_c8_restricted_w :
    (⟨"A", "B", "r2"⟩ : Rule) ∉ confFiltered confW ["A", "C"] ∧
      conflitoFlag baseW confW ["A", "C"] comboW = "" ∧
      conflitoDescr baseW confW ["A", "C"] comboW = "" ∧
      registros baseW confW ["A", "C"] = [] := by
  have h := claim_c8_restricted baseW confW ["A", "C"]
  have h2 := h.2 (by decide)
  refine ⟨fun hmem => ?_, (h2.1 comboW).1, (h2.1 comboW).2, h2.2⟩
  exact absurd ((h.1 _).mp hmem).2.2 (by decide)

/-- C9: a self-pair rule `(a, a, m)` contributes nothing — adding it anywhere
to the rule list leaves every row's conflict flag and description and the
detailed conflict table unchanged. -/
theorem claim_c9_selfpair (base : List Row) (sel : List String) (c₁ c₂ : List Rule)
    (a m : String) :
    (∀ c : Combo,
        conflitoFlag base (c₁ ++ ⟨a, a, m⟩ :: c₂) sel c =
          conflitoFlag base (c₁ ++ c₂) sel c ∧
        conflitoDescr base (c₁ ++ ⟨a, a, m⟩ :: c₂) sel c =
          conflitoDescr base (c₁ ++ c₂) sel c) ∧
      registros base (c₁ ++ ⟨a, a, m⟩ :: c₂) sel = registros base (c₁ ++ c₂) sel := by
  have hcc := comboConflicts_selfpair base sel c₁ c₂ a m
  refine ⟨fun c => ⟨?_, ?_⟩, ?_⟩
  · rw [conflitoFlag_char, conflitoFlag_char, hcc]
  · rw [conflitoDescr_char, conflitoDescr_char, hcc]
  · rw [registros_char, registros_char]
    simp only [hcc]

/-- C10: a selected profile absent from the assignment table is handled
without an error: the common set is empty, the unknown profile's exclusive set
is empty, and its matrix column is entirely blank. -/
theorem claim_c10_absent (base : List Row) (sel : List String) (p : String)
    (hlen : 2 ≤ sel.length) (hp : p ∈ sel) (habs : ∀ r ∈ base, r.grupo ≠ p) :
    acessosComuns base sel = ∅ ∧
      exclusivos base sel p = ∅ ∧
      ∀ c : Combo, presCell base p c = "" := by
  have hps : perfilSet base p = ∅ := by
    rw [Finset.eq_empty_iff_forall_not_mem]
    intro c hc
    obtain ⟨r, hr, hg, -⟩ := mem_perfilSet.mp hc
    exact habs r hr hg
  have hne : sel ≠ [] := by
    intro h
    rw [h] at hlen
    simp at hlen
  refine ⟨?_, ?_, fun c => ?_⟩
  · rw [Finset.eq_empty_iff_forall_not_mem]
    intro c hc
    have := (mem_acessosComuns hne).mp hc p hp
    rw [hps] at this
    exact absurd this (Finset.not_mem_empty c)
  · rw [Finset.eq_empty_iff_forall_not_mem]
    intro c hc
    have := (mem_exclusivos.mp hc).1
    rw [hps] at this
    exact absurd this (Finset.not_mem_empty c)
  · rw [presCell, if_neg]
    rw [hps]
    exact Finset.not_mem_empty c

/-- Witness for C10 at a concrete input (unknown profile `"X"`). -/
theorem claim_c10_absent_w :
    acessosComuns baseW ["A", "X"] = ∅ ∧
      exclusivos baseW ["A", "X"] "X" = ∅ ∧
      ∀ c : Combo, presCell baseW "X" c = "" :=
  claim_c10_absent baseW ["A", "X"] "X" (by decide) (by decide) (by decide)
